import Mathlib

/-!
# Verification of the ICD water-meter consumption pipeline

Shallow embedding of `src/app.py` (meter-data processing app).
Timestamps are modelled as natural numbers (minutes since the start of the
reference timeline), energy readings as rationals; a reading that failed
`pd.to_numeric(..., errors='coerce')` is `none` (pandas `NaN`), a timestamp
that failed `pd.to_datetime(..., errors='coerce')` is `none` (pandas `NaT`).
-/

/-- A raw per-meter row as it enters `calculate_meter_consumption`:
the timestamp is `none` when upstream parsing produced `NaT`, the reading is
`none` when numeric coercion produced `NaN`. -/
structure RawRow where
  ts : Option Nat
  meter : String
  reading : Option Rat
deriving DecidableEq

/-- A normalized row (timestamp parse succeeded, i.e. survived
`dropna(subset=['Timestamp'])`). -/
structure NRow where
  ts : Nat
  meter : String
  reading : Option Rat
deriving DecidableEq

/-- Output timestamps: the empty-input branch of `calculate_meter_consumption`
emits raw (unformatted) timeline values, the other branches apply
`.dt.strftime('%d/%m/%Y %H:%M')`.  We keep the raw/formatted distinction as a
constructor tag. -/
inductive OutTS where
  | raw (t : Nat)
  | fmt (t : Nat)
deriving DecidableEq

/-- One output record: `Timestamp`, `Meter`, `Volume Consumption`. -/
structure OutRec where
  ts : OutTS
  meter : String
  vol : Rat
deriving DecidableEq

/-- `meter_data.sort_values('Timestamp')`: sort rows by timestamp ascending.
(No claim depends on the order of rows sharing a timestamp, so any correct
comparison sort is an adequate model.) -/
def sortSeries (s : List NRow) : List NRow :=
  List.insertionSort (fun a b => a.ts ≤ b.ts) s

/-- `drop_duplicates(subset=['Timestamp'], keep='first')`: keep the first row
of each timestamp in the current order; `seen` is the set of timestamps
already kept. -/
def dedupFirst : List NRow → List Nat → List NRow
  | [], _ => []
  | r :: rest, seen =>
      if r.ts ∈ seen then dedupFirst rest seen
      else r :: dedupFirst rest (r.ts :: seen)

/-- The guarded relative-error comparison `abs(num) / den < 0.01` of
`detect_and_correct_abnormal_readings` (tolerance hardcoded to `0.01` in the
source).  The readings are numpy floats, so when `den == 0` the division
yields `inf` (or `nan` when `num == 0` too) and the `<` comparison is false;
the `den ≠ 0` guard reproduces exactly that behavior over exact rationals. -/
def anomalyRatioLt (num den : Rat) : Bool :=
  decide (den ≠ 0) && decide (|num| / den < 1/100)

/-- The two-sided multiple test of the source, lines 40-41 (m = 2) and
48-49 (m = 3): `abs(curr - m*prev)/prev < 0.01 and abs(curr - m*next)/next < 0.01`. -/
def isMultipleAnomaly (m prev curr next : Rat) : Bool :=
  anomalyRatioLt (curr - m * prev) prev && anomalyRatioLt (curr - m * next) next

/-- One iteration of the loop body of `detect_and_correct_abnormal_readings`
at index `i`: read `prev = s[i-1]`, `curr = s[i]`, `next = s[i+1]` from the
current (possibly already mutated) array and overwrite `s[i]` with the mean
of the neighbors when the 2x test, or failing that the 3x test, matches.
A `none` (NaN) reading makes every comparison false, hence no match. -/
def correctAt (s : List NRow) (i : Nat) : List NRow :=
  match s[i-1]?, s[i]?, s[i+1]? with
  | some pr, some cr, some nr =>
      match pr.reading, cr.reading, nr.reading with
      | some prev, some curr, some next =>
          if isMultipleAnomaly 2 prev curr next then
            s.set i { cr with reading := some ((prev + next) / 2) }
          else if isMultipleAnomaly 3 prev curr next then
            s.set i { cr with reading := some ((prev + next) / 2) }
          else s
      | _, _, _ => s
  | _, _, _ => s

/-- `detect_and_correct_abnormal_readings` (src/app.py lines 18-54): series
shorter than 3 pass through unchanged (and unsorted); otherwise the rows are
sorted by timestamp and the loop `for i in range(1, len-1)` mutates the
array in place, left to right.  (The `Reading_Diff` / `Next_Reading_Diff`
columns computed at lines 30-31 are never read and are omitted.) -/
def detect_and_correct_abnormal_readings (s : List NRow) : List NRow :=
  if s.length < 3 then s
  else
    (List.range ((sortSeries s).length - 2)).foldl
      (fun acc k => correctAt acc (k+1)) (sortSeries s)

/-- The step a single interior row undergoes, expressed functionally:
given the (already corrected) previous row `p`, the original current row `c`
and the original next row `n`, return the corrected current row. -/
def recStep0 (p c n : NRow) : NRow :=
  match p.reading, c.reading, n.reading with
  | some prev, some curr, some next =>
      if isMultipleAnomaly 2 prev curr next || isMultipleAnomaly 3 prev curr next then
        { c with reading := some ((prev + next) / 2) }
      else c
  | _, _, _ => c

/-- Left-to-right propagation of corrections along the tail of the series:
`correctFrom p rest` corrects every element of `rest` except the last, each
against the corrected value of its left neighbor (`p` for the head) and the
original value of its right neighbor. -/
def correctFrom (p : NRow) : List NRow → List NRow
  | [] => []
  | [c] => [c]
  | c :: n :: rest => recStep0 p c n :: correctFrom (recStep0 p c n) (n :: rest)

/-- The anomaly corrector as the spec describes it (§4.3, §9): a single
deterministic forward sweep over the sorted series in which the comparison at
index `i` uses the current, possibly already-corrected value of index `i-1`,
and earlier indices are never revisited. -/
def singleForwardPass (s : List NRow) : List NRow :=
  if s.length < 3 then s
  else
    match sortSeries s with
    | [] => []
    | h :: t => h :: correctFrom h t

/-- The body of the `while current <= end` loop of `generate_master_timeline`,
with explicit fuel: each iteration advances `current` by `step ≥ 1`, so
`endT + 1 - current` iterations always suffice (see `timelineLoop`). -/
def timelineLoopAux (endT step : Nat) : Nat → Nat → List Nat
  | 0, _ => []
  | fuel+1, current =>
      if current ≤ endT then current :: timelineLoopAux endT step fuel (current + step)
      else []

/-- The `while current <= end` loop of `generate_master_timeline`, generalized
over `(start, end, step)` in minutes; the `0 < step` guard is the termination
condition of the loop (the source instantiates `step = 15`), and the fuel
`endT + 1 - current` dominates the number of iterations. -/
def timelineLoop (endT step current : Nat) : List Nat :=
  if 0 < step then timelineLoopAux endT step (endT + 1 - current) current else []

/-- `generate_master_timeline` (src/app.py lines 8-16): start
2025-01-01 00:00, end 2025-08-31 23:45, step 15 minutes.  In minutes since
the start, the end bound is 242 days + 23 h 45 min = 349905. -/
def generate_master_timeline : List Nat :=
  timelineLoop 349905 15 0

/-- `meter_data.dropna(subset=['Timestamp'])` applied to raw rows: rows whose
timestamp failed parsing are discarded; readings are kept as coerced. -/
def normalizeRows (s : List RawRow) : List NRow :=
  s.filterMap (fun r => r.ts.map (fun t => NRow.mk t r.meter r.reading))

/-- The rows selected by `valid_mask = meter_data['Energy Reading'].notna()`,
as `(timestamp, reading)` pairs in series order. -/
def validReadings (s : List NRow) : List (Nat × Rat) :=
  s.filterMap (fun r => r.reading.map (fun v => (r.ts, v)))

/-- `valid_readings['Energy Reading'].diff()` followed by setting the first
entry to `0` (source lines 95-99): the first valid reading is an anchor with
consumption 0, each later one gets the difference to its predecessor. -/
def diffWithAnchor (vals : List Rat) : List Rat :=
  match vals with
  | [] => []
  | _ :: rest => 0 :: List.zipWith (fun a b => a - b) rest vals

/-- The clamp of source line 102: negative consumption is replaced by `0`;
nothing else is changed (no upper clamp). -/
def clampNeg (v : Rat) : Rat :=
  if v < 0 then 0 else v

/-- The `(Timestamp, Volume Consumption)` table handed to the merge
(source lines 95-107): valid readings keyed by timestamp, diffed,
anchored at 0 and clamped. -/
def consumptionPairs (corrected : List NRow) : List (Nat × Rat) :=
  let vs := validReadings corrected
  List.zip (vs.map Prod.fst) ((diffWithAnchor (vs.map Prod.snd)).map clampNeg)

/-- First-match lookup of a timestamp among the `(Timestamp, Volume
Consumption)` pairs: the model of the pandas left merge on `Timestamp`
(the dedup step makes the right-hand keys unique, so the merge produces
exactly one output row per master slot and agrees with first-match). -/
def lookupTs (t : Nat) : List (Nat × Rat) → Option Rat
  | [] => none
  | (k, v) :: rest => if t = k then some v else lookupTs t rest

/-- The Normalized → Corrected part of the per-meter pipeline inside
`calculate_meter_consumption` (lines 67-80): numeric coercion is part of the
`RawRow` model, then dropna on Timestamp, sort, dedupe keep-first, anomaly
correction. -/
def pipelineCorrected (s : List RawRow) : List NRow :=
  detect_and_correct_abnormal_readings (dedupFirst (sortSeries (normalizeRows s)) [])

/-- `meter_data['Meter'].iloc[0] if not meter_data.empty else 'Unknown'`
(source lines 112 and 122, on the post-correction frame). -/
def meterNameOf (md : List NRow) : String :=
  (md.head?.map NRow.meter).getD "Unknown"

/-- `calculate_meter_consumption` (src/app.py lines 56-127).
The empty-input branch (line 58) emits raw timeline timestamps and the
literal meter name `Unknown` (a DataFrame has no `name` attribute, so the
`hasattr` fallback always yields `Unknown`).  Otherwise the pipeline runs
and, when there is at least one valid (numeric) reading, the consumption
table is left-joined onto the master timeline on exact timestamp equality
(the deduplication step makes timestamps unique, so the pandas merge agrees
with a first-match lookup), missing slots filled with `0`, the meter name
taken from the first row of the corrected series (`Unknown` when it is
empty), and timestamps formatted with `strftime`; with no valid reading the
full timeline is emitted with zero consumption. -/
def calculate_meter_consumption (s : List RawRow) (master : List Nat) : List OutRec :=
  match s with
  | [] => master.map (fun t => OutRec.mk (OutTS.raw t) "Unknown" 0)
  | _ :: _ =>
    match validReadings (pipelineCorrected s) with
    | [] => master.map (fun t => OutRec.mk (OutTS.fmt t) (meterNameOf (pipelineCorrected s)) 0)
    | _ :: _ =>
      master.map (fun t => OutRec.mk (OutTS.fmt t) (meterNameOf (pipelineCorrected s))
        ((lookupTs t (consumptionPairs (pipelineCorrected s))).getD 0))

/-- Sortedness of a normalized series by timestamp, ascending. -/
def sortedByTs (s : List NRow) : Prop :=
  List.Sorted (fun a b : NRow => a.ts ≤ b.ts) s

/-- The anomaly test exactly as the spec states it (§4.3):
`|curr − m·prev| / prev < tolerance ∧ |curr − m·next| / next < tolerance`
with the reference tolerance 1/100. -/
def specAnomalyTest (m prev curr next : Rat) : Prop :=
  |curr - m * prev| / prev < 1/100 ∧ |curr - m * next| / next < 1/100

instance : DecidableRel (fun a b : NRow => a.ts ≤ b.ts) :=
  fun a b => Nat.decLe a.ts b.ts

instance : IsTotal NRow (fun a b : NRow => a.ts ≤ b.ts) :=
  ⟨fun a b => Nat.le_total a.ts b.ts⟩

instance : IsTrans NRow (fun a b : NRow => a.ts ≤ b.ts) :=
  ⟨fun _ _ _ h1 h2 => Nat.le_trans h1 h2⟩

/-! ## Timeline generator -/

lemma timelineLoopAux_of_gt (endT step fuel current : Nat) (h : endT < current) :
    timelineLoopAux endT step fuel current = [] := by
  cases fuel with
  | zero => rfl
  | succ n => simp [timelineLoopAux, Nat.not_le.mpr h]

lemma timelineLoopAux_closed (endT step : Nat) (hs : 0 < step) :
    ∀ fuel current, current ≤ endT → (endT - current) / step + 1 ≤ fuel →
      timelineLoopAux endT step fuel current
        = (List.range ((endT - current) / step + 1)).map (fun k => current + step * k) := by
  intro fuel
  induction fuel with
  | zero => intro current _ hf; exact absurd hf (Nat.not_succ_le_zero _)
  | succ n ih =>
      intro current hc hf
      rw [timelineLoopAux, if_pos hc]
      by_cases h2 : current + step ≤ endT
      · have key : (endT - current) / step = (endT - (current + step)) / step + 1 := by
          have hsplit : endT - current = (endT - (current + step)) + step := by omega
          rw [hsplit, Nat.add_div_right _ hs]
        rw [key] at hf
        have hfuel : (endT - (current + step)) / step + 1 ≤ n := Nat.le_of_succ_le_succ hf
        rw [ih (current + step) h2 hfuel, key]
        conv_rhs => rw [List.range_succ_eq_map, List.map_cons, List.map_map]
        simp only [Nat.mul_zero, Nat.add_zero]
        refine congrArg (current :: ·) (List.map_congr_left ?_)
        intro k _
        simp only [Function.comp_apply, Nat.succ_eq_add_one, Nat.mul_succ]
        ring
      · have hz : (endT - current) / step = 0 := Nat.div_eq_of_lt (by omega)
        rw [timelineLoopAux_of_gt endT step n (current + step) (by omega), hz]
        simp [List.range_succ]

lemma timelineLoop_closed (start endT step : Nat) (h1 : start ≤ endT) (hs : 0 < step) :
    timelineLoop endT step start
      = (List.range ((endT - start) / step + 1)).map (fun k => start + step * k) := by
  have hfuel : (endT - start) / step + 1 ≤ endT + 1 - start := by
    have := Nat.div_le_self (endT - start) step
    omega
  rw [timelineLoop, if_pos hs]
  exact timelineLoopAux_closed endT step hs _ start h1 hfuel

/-- C9: for valid bounds (`start ≤ end`, `step > 0`) the timeline generator
returns a strictly increasing sequence with uniform spacing `step` and length
`floor((end − start)/step) + 1`; in the reference deployment
(2025-01-01T00:00 to 2025-08-31T23:45, 15-minute step, i.e. minutes 0 to
349905) the generated master timeline accordingly has 349905/15 + 1 = 23328
slots. -/
theorem timeline_generator_valid_bounds (start endT step : Nat)
    (h1 : start ≤ endT) (hs : 0 < step) :
    (timelineLoop endT step start).length = (endT - start) / step + 1 ∧
    List.Chain' (fun a b => a < b) (timelineLoop endT step start) ∧
    (∀ i, i + 1 < (timelineLoop endT step start).length →
      (timelineLoop endT step start).getD (i+1) 0
        = (timelineLoop endT step start).getD i 0 + step) ∧
    generate_master_timeline.length = 23328 := by
  rw [timelineLoop_closed start endT step h1 hs]
  refine ⟨by simp, ?_, ?_, ?_⟩
  · rw [List.chain'_map]
    rw [show (endT - start) / step + 1 = ((endT - start) / step) + 1 from rfl]
    rw [List.chain'_range_succ]
    intro m _
    simp only [Nat.succ_eq_add_one, Nat.mul_succ]
    omega
  · intro i hi
    simp only [List.length_map, List.length_range] at hi
    have hi1 : i + 1 < (List.range ((endT - start) / step + 1)).length := by
      simp [hi]
    have hi0 : i < (List.range ((endT - start) / step + 1)).length := by
      simp at hi1 ⊢; omega
    rw [List.getD_eq_getElem _ _ (by simpa using hi1), List.getD_eq_getElem _ _ (by simpa using hi0)]
    simp only [List.getElem_map, List.getElem_range]
    rw [Nat.mul_succ]; ring
  · have h := timelineLoop_closed 0 349905 15 (by norm_num) (by norm_num)
    show (timelineLoop 349905 15 0).length = 23328
    rw [h]
    simp

/-- Witness for C9 at `start = 0`, `end = 10`, `step = 3`. -/
theorem timeline_generator_valid_bounds_witness :
    (timelineLoop 10 3 0).length = (10 - 0) / 3 + 1 ∧
    (timelineLoop 10 3 0).getD 1 0 = (timelineLoop 10 3 0).getD 0 0 + 3 := by
  refine ⟨(timeline_generator_valid_bounds 0 10 3 (by decide) (by decide)).1, ?_⟩
  exact (timeline_generator_valid_bounds 0 10 3 (by decide) (by decide)).2.2.1 0 (by decide)

/-! ## Anomaly corrector: loop/recurrence equivalence -/

lemma getElem?_append_len {α : Type} (pre l : List α) (k : Nat) :
    (pre ++ l)[pre.length + k]? = l[k]? := by
  rw [List.getElem?_append_right (by omega)]
  congr 1
  omega

lemma set_append_len {α : Type} (pre l : List α) (k : Nat) (v : α) :
    (pre ++ l).set (pre.length + k) v = pre ++ l.set k v := by
  induction pre with
  | nil => simp
  | cons a pre ih =>
      simp only [List.cons_append, List.length_cons]
      rw [show pre.length + 1 + k = (pre.length + k) + 1 by omega, List.set_cons_succ, ih]

lemma correctAt_length (s : List NRow) (i : Nat) : (correctAt s i).length = s.length := by
  unfold correctAt
  split
  · split
    · split
      · exact List.length_set ..
      · split
        · exact List.length_set ..
        · rfl
    all_goals rfl
  · rfl

lemma foldl_correctAt_length (is : List Nat) :
    ∀ s : List NRow, (is.foldl correctAt s).length = s.length := by
  induction is with
  | nil => intro s; rfl
  | cons i is ih => intro s; rw [List.foldl_cons, ih, correctAt_length]

lemma correctAt_of_last (s : List NRow) (i : Nat) (h : s.length ≤ i + 1) :
    correctAt s i = s := by
  unfold correctAt
  rw [List.getElem?_eq_none h]
  split
  · rename_i heq
    exact Option.noConfusion heq
  · rfl

lemma correctAt_cons_step (pre : List NRow) (prev c n : NRow) (rest : List NRow) :
    correctAt (pre ++ prev :: c :: n :: rest) (pre.length + 1)
      = pre ++ prev :: recStep0 prev c n :: n :: rest := by
  have h0 : (pre ++ prev :: c :: n :: rest)[pre.length + 1 - 1]? = some prev := by
    rw [show pre.length + 1 - 1 = pre.length + 0 by omega, getElem?_append_len]; simp
  have h1 : (pre ++ prev :: c :: n :: rest)[pre.length + 1]? = some c := by
    rw [getElem?_append_len]; simp
  have h2 : (pre ++ prev :: c :: n :: rest)[pre.length + 1 + 1]? = some n := by
    rw [show pre.length + 1 + 1 = pre.length + 2 by omega, getElem?_append_len]; simp
  have hset : ∀ v : NRow, (pre ++ prev :: c :: n :: rest).set (pre.length + 1) v
      = pre ++ prev :: v :: n :: rest := by
    intro v
    rw [set_append_len, List.set_cons_succ, List.set_cons_zero]
  unfold correctAt recStep0
  rw [h0, h1, h2]
  rcases hp : prev.reading with _ | pv <;>
    rcases hc2 : c.reading with _ | cv <;>
    rcases hn : n.reading with _ | nv <;>
    simp only [hp, hc2, hn]
  by_cases hb2 : isMultipleAnomaly 2 pv cv nv = true
  · rw [if_pos hb2, if_pos (by simp [hb2]), hset]
  · by_cases hb3 : isMultipleAnomaly 3 pv cv nv = true
    · rw [if_neg hb2, if_pos hb3, if_pos (by simp [hb3]), hset]
    · rw [if_neg hb2, if_neg hb3, if_neg (by simp [hb2, hb3])]

lemma foldl_correctAt_eq_correctFrom :
    ∀ (rest pre : List NRow) (prev : NRow),
      (List.range' (pre.length + 1) rest.length).foldl correctAt (pre ++ prev :: rest)
        = pre ++ prev :: correctFrom prev rest := by
  intro rest
  induction rest with
  | nil => intro pre prev; simp [correctFrom]
  | cons c rest' ih =>
      intro pre prev
      rw [List.length_cons, List.range'_succ, List.foldl_cons]
      cases rest' with
      | nil =>
          rw [correctAt_of_last _ _ (by simp)]
          simp [correctFrom]
      | cons n rest'' =>
          rw [correctAt_cons_step]
          have step2 := ih (pre ++ [prev]) (recStep0 prev c n)
          simp only [List.length_append, List.length_cons, List.length_nil,
            List.append_assoc, List.cons_append, List.nil_append,
            Nat.add_zero, Nat.zero_add] at step2
          simp only [List.length_cons]
          rw [step2, correctFrom]

lemma detect_eq_singleForwardPass (s : List NRow) :
    detect_and_correct_abnormal_readings s = singleForwardPass s := by
  unfold detect_and_correct_abnormal_readings singleForwardPass
  by_cases hlen : s.length < 3
  · simp [hlen]
  · rw [if_neg hlen, if_neg hlen]
    have hlen' : (sortSeries s).length = s.length := List.length_insertionSort ..
    cases hs : sortSeries s with
    | nil =>
        rw [hs] at hlen'
        simp at hlen'
        omega
    | cons h t =>
        rw [hs] at hlen'
        simp only [List.length_cons] at hlen'
        have ht2 : 2 ≤ t.length := by omega
        dsimp only
        simp only [List.length_cons]
        rw [show t.length + 1 - 2 = t.length - 1 by omega]
        have hfun : (fun (acc : List NRow) k => correctAt acc (k+1))
            = (fun (acc : List NRow) k => correctAt acc (1 + k)) := by
          funext acc k; rw [Nat.add_comm]
        rw [hfun, ← List.foldl_map (fun x => 1 + x) correctAt, ← List.range'_eq_map_range]
        have hfull := foldl_correctAt_eq_correctFrom t [] h
        simp only [List.nil_append, List.length_nil, Nat.zero_add] at hfull
        rw [show t.length = (t.length - 1) + 1 by omega, List.range'_concat,
          List.foldl_append] at hfull
        rw [show 1 + 1 * (t.length - 1) = t.length by omega] at hfull
        rw [List.foldl_cons, List.foldl_nil,
          correctAt_of_last _ _ (by rw [foldl_correctAt_length]; simp)] at hfull
        exact hfull

/-- Default row used with `List.getD` when indexing series. -/
def dRow : NRow := ⟨0, "", none⟩

lemma correctFrom_getD (d : NRow) :
    ∀ (rest : List NRow) (p : NRow) (i : Nat), i + 2 ≤ rest.length →
      (correctFrom p rest).getD i d
        = recStep0 ((p :: correctFrom p rest).getD i d) (rest.getD i d) (rest.getD (i+1) d) := by
  intro rest
  induction rest with
  | nil => intro p i hi; simp at hi
  | cons c rest' ih =>
      intro p i hi
      cases rest' with
      | nil => simp at hi
      | cons n rest'' =>
          rw [correctFrom]
          cases i with
          | zero => simp [List.getD_cons_zero, List.getD_cons_succ]
          | succ j =>
              have hj : j + 2 ≤ (n :: rest'').length := by
                simp only [List.length_cons] at hi ⊢
                omega
              simpa [List.getD_cons_succ] using ih (recStep0 p c n) j hj

lemma sortSeries_sorted_eq (s : List NRow) (hsort : sortedByTs s) : sortSeries s = s :=
  List.Sorted.insertionSort_eq hsort

lemma detect_getD_interior (s : List NRow) (j : Nat)
    (hsort : sortedByTs s) (hlen : 3 ≤ s.length) (hj : j + 3 ≤ s.length) :
    (detect_and_correct_abnormal_readings s).getD (j+1) dRow
      = recStep0 ((detect_and_correct_abnormal_readings s).getD j dRow)
          (s.getD (j+1) dRow) (s.getD (j+2) dRow) := by
  rw [detect_eq_singleForwardPass]
  cases s with
  | nil => simp at hlen
  | cons h t =>
      have hsfp : singleForwardPass (h :: t) = h :: correctFrom h t := by
        unfold singleForwardPass
        rw [if_neg (by simp only [List.length_cons] at hlen ⊢; omega),
          sortSeries_sorted_eq _ hsort]
      rw [hsfp]
      simp only [List.getD_cons_succ]
      have hjt : j + 2 ≤ t.length := by
        simp only [List.length_cons] at hj
        omega
      rw [correctFrom_getD dRow t h j hjt]

lemma isMultipleAnomaly_iff_spec (m prev curr next : Rat) (hp : prev ≠ 0) (hn : next ≠ 0) :
    isMultipleAnomaly m prev curr next = true ↔ specAnomalyTest m prev curr next := by
  simp [isMultipleAnomaly, anomalyRatioLt, specAnomalyTest, hp, hn]

lemma isMultipleAnomaly_zero_prev (m curr next : Rat) :
    isMultipleAnomaly m 0 curr next = false := by
  simp [isMultipleAnomaly, anomalyRatioLt]

lemma isMultipleAnomaly_zero_next (m prev curr : Rat) :
    isMultipleAnomaly m prev curr 0 = false := by
  simp [isMultipleAnomaly, anomalyRatioLt]

instance (m prev curr next : Rat) : Decidable (specAnomalyTest m prev curr next) := by
  unfold specAnomalyTest
  infer_instance

/-- C5: the anomaly corrector is one deterministic left-to-right sweep: it
equals the forward recurrence `singleForwardPass`, in which the comparison at
each interior index uses the current, possibly already-corrected value of the
previous index (corrections propagate rightward) together with the original
next value, and earlier indices are never revisited — no second pass, no
fixed-point iteration. -/
theorem corrector_is_single_forward_pass (s : List NRow) :
    detect_and_correct_abnormal_readings s = singleForwardPass s :=
  detect_eq_singleForwardPass s

/-- C1: on a sorted series of at least 3 readings, at every interior index
`i` whose (already corrected) previous reading and (original) next reading
are numeric and nonzero, the corrector replaces reading `i` by
`(prev + next)/2` exactly when the two-sided 2x relative test (or, failing
that, the 3x test) passes at tolerance 1/100; the two branches produce the
same repair, so at most one fires.  Concretely, `[100, 200, 100]` becomes
`[100, 100, 100]` while `[100, 210, 100]` is left unchanged. -/
theorem anomaly_replacement_rule :
    (∀ (s : List NRow) (i : Nat) (prev curr next : Rat),
      sortedByTs s → 3 ≤ s.length → 1 ≤ i → i ≤ s.length - 2 →
      ((detect_and_correct_abnormal_readings s).getD (i-1) dRow).reading = some prev →
      (s.getD i dRow).reading = some curr →
      (s.getD (i+1) dRow).reading = some next →
      prev ≠ 0 → next ≠ 0 →
      ((detect_and_correct_abnormal_readings s).getD i dRow).reading
        = some (if specAnomalyTest 2 prev curr next ∨ specAnomalyTest 3 prev curr next
            then (prev + next) / 2 else curr)) ∧
    detect_and_correct_abnormal_readings
        [⟨0, "M", some 100⟩, ⟨15, "M", some 200⟩, ⟨30, "M", some 100⟩]
      = [⟨0, "M", some 100⟩, ⟨15, "M", some 100⟩, ⟨30, "M", some 100⟩] ∧
    detect_and_correct_abnormal_readings
        [⟨0, "M", some 100⟩, ⟨15, "M", some 210⟩, ⟨30, "M", some 100⟩]
      = [⟨0, "M", some 100⟩, ⟨15, "M", some 210⟩, ⟨30, "M", some 100⟩] := by
  refine ⟨?_, ?_, ?_⟩
  · intro s i prev curr next hsort hlen hi1 hi2 hprev hcurr hnext hp hn
    obtain ⟨j, rfl⟩ : ∃ j, i = j + 1 := ⟨i - 1, by omega⟩
    have hj3 : j + 3 ≤ s.length := by omega
    rw [detect_getD_interior s j hsort hlen hj3]
    simp only [Nat.add_sub_cancel] at hprev
    have hnext2 : (s.getD (j+2) dRow).reading = some next := hnext
    unfold recStep0
    simp only [hprev, hcurr, hnext2]
    by_cases hor : specAnomalyTest 2 prev curr next ∨ specAnomalyTest 3 prev curr next
    · have hb : (isMultipleAnomaly 2 prev curr next
          || isMultipleAnomaly 3 prev curr next) = true := by
        rcases hor with h2 | h3
        · simp [(isMultipleAnomaly_iff_spec 2 prev curr next hp hn).mpr h2]
        · simp [(isMultipleAnomaly_iff_spec 3 prev curr next hp hn).mpr h3]
      rw [if_pos hb, if_pos hor]
    · have hb : ¬((isMultipleAnomaly 2 prev curr next
          || isMultipleAnomaly 3 prev curr next) = true) := by
        simp only [Bool.or_eq_true, isMultipleAnomaly_iff_spec _ _ _ _ hp hn]
        exact hor
      rw [if_neg hb, if_neg hor]
      exact hcurr
  · norm_num [detect_and_correct_abnormal_readings, sortSeries, correctAt,
      isMultipleAnomaly, anomalyRatioLt, List.insertionSort, List.orderedInsert,
      List.range, List.foldl]
  · norm_num [detect_and_correct_abnormal_readings, sortSeries, correctAt,
      isMultipleAnomaly, anomalyRatioLt, List.insertionSort, List.orderedInsert,
      List.range, List.foldl]

/-- Witness for C1: `[100, 200, 100]` with 1% tolerance becomes
`[100, 100, 100]` — at index 1 the test fires and the mean of the
neighbors is installed. -/
theorem anomaly_replacement_rule_witness :
    ((detect_and_correct_abnormal_readings
        [⟨0, "M", some 100⟩, ⟨15, "M", some 200⟩, ⟨30, "M", some 100⟩]).getD 1 dRow).reading
      = some 100 := by
  have h := anomaly_replacement_rule.1
    [⟨0, "M", some 100⟩, ⟨15, "M", some 200⟩, ⟨30, "M", some 100⟩] 1 100 200 100
    (by simp [sortedByTs])
    (by simp)
    (by norm_num)
    (by simp)
    (by norm_num [detect_and_correct_abnormal_readings, sortSeries, correctAt,
      isMultipleAnomaly, anomalyRatioLt, List.insertionSort, List.orderedInsert,
      List.range, List.foldl, dRow])
    (by norm_num [dRow])
    (by norm_num [dRow])
    (by norm_num)
    (by norm_num)
  rw [h]
  norm_num [specAnomalyTest]

/-- C6: when the (already corrected) previous neighbor or the next neighbor
of an interior reading is zero, the guarded ratio test evaluates to a
non-match (the float division yields inf/nan, never `< 0.01`) and the reading
is left unchanged — no division fault escapes the corrector. -/
theorem zero_neighbor_no_correction (s : List NRow) (i : Nat)
    (hsort : sortedByTs s) (hlen : 3 ≤ s.length) (hi1 : 1 ≤ i) (hi2 : i ≤ s.length - 2)
    (hzero : ((detect_and_correct_abnormal_readings s).getD (i-1) dRow).reading = some 0
      ∨ (s.getD (i+1) dRow).reading = some 0) :
    ((detect_and_correct_abnormal_readings s).getD i dRow).reading
      = (s.getD i dRow).reading := by
  obtain ⟨j, rfl⟩ : ∃ j, i = j + 1 := ⟨i - 1, by omega⟩
  rw [detect_getD_interior s j hsort hlen (by omega)]
  simp only [Nat.add_sub_cancel] at hzero
  have hzero2 : ((detect_and_correct_abnormal_readings s).getD j dRow).reading = some 0
      ∨ (s.getD (j+2) dRow).reading = some 0 := hzero
  unfold recStep0
  rcases hP : ((detect_and_correct_abnormal_readings s).getD j dRow).reading with _ | pv <;>
    rcases hC : ((s.getD (j+1) dRow)).reading with _ | cv <;>
    rcases hN : ((s.getD (j+2) dRow)).reading with _ | nv <;>
    simp only [hP, hC, hN]
  rcases hzero2 with hz | hz
  · rw [hP] at hz
    obtain rfl := Option.some.inj hz
    rw [if_neg (by simp [isMultipleAnomaly_zero_prev])]
    exact hC
  · rw [hN] at hz
    obtain rfl := Option.some.inj hz
    rw [if_neg (by simp [isMultipleAnomaly_zero_next])]
    exact hC

/-- Witness for C6: series `[0, 200, 100]` — the zero previous neighbor
makes index 1 a non-match, so the 200 reading stays. -/
theorem zero_neighbor_no_correction_witness :
    ((detect_and_correct_abnormal_readings
        [⟨0, "M", some 0⟩, ⟨15, "M", some 200⟩, ⟨30, "M", some 100⟩]).getD 1 dRow).reading
      = (([⟨0, "M", some 0⟩, ⟨15, "M", some 200⟩, ⟨30, "M", some 100⟩] : List NRow).getD 1 dRow).reading := by
  exact zero_neighbor_no_correction
    [⟨0, "M", some 0⟩, ⟨15, "M", some 200⟩, ⟨30, "M", some 100⟩] 1
    (by simp [sortedByTs])
    (by simp)
    (by norm_num)
    (by simp)
    (Or.inl (by norm_num [detect_and_correct_abnormal_readings, sortSeries, correctAt,
      isMultipleAnomaly, anomalyRatioLt, List.insertionSort, List.orderedInsert,
      List.range, List.foldl, dRow]))

/-- The row identity the corrector must preserve: timestamp and meter. -/
def keyOf (r : NRow) : Nat × String := (r.ts, r.meter)

lemma map_keyOf_set : ∀ (s : List NRow) (i : Nat) (cr : NRow) (v : Option Rat),
    s[i]? = some cr →
    (s.set i { cr with reading := v }).map keyOf = s.map keyOf := by
  intro s
  induction s with
  | nil => intro i cr v h; simp at h
  | cons a s ih =>
      intro i cr v h
      cases i with
      | zero =>
          simp only [List.getElem?_cons_zero, Option.some.injEq] at h
          subst h
          simp [List.set_cons_zero, keyOf]
      | succ n =>
          simp only [List.getElem?_cons_succ] at h
          simp [List.set_cons_succ, ih n cr v h]

lemma keyOf_correctAt (s : List NRow) (i : Nat) :
    (correctAt s i).map keyOf = s.map keyOf := by
  unfold correctAt
  split
  · rename_i pr cr nr hpr hcr hnr
    split
    · rename_i prev curr next
      split
      · exact map_keyOf_set s i cr _ hcr
      · split
        · exact map_keyOf_set s i cr _ hcr
        · rfl
    · rfl
  · rfl

lemma foldl_correctAt_keyOf (is : List Nat) :
    ∀ s : List NRow,
      ((is.foldl (fun acc k => correctAt acc (k+1)) s).map keyOf) = s.map keyOf := by
  induction is with
  | nil => intro s; rfl
  | cons i is ih => intro s; rw [List.foldl_cons, ih, keyOf_correctAt]

/-- C8: the anomaly corrector returns a series of the same cardinality whose
multiset of (timestamp, meter) row identities — in particular its timestamp
set — is exactly that of the input; only `energy_reading` values change, no
row is added or discarded. -/
theorem corrector_preserves_rows (s : List NRow) :
    ((detect_and_correct_abnormal_readings s).map keyOf).Perm (s.map keyOf) ∧
    (detect_and_correct_abnormal_readings s).length = s.length ∧
    ((detect_and_correct_abnormal_readings s).map NRow.ts).Perm (s.map NRow.ts) := by
  have hkey : ((detect_and_correct_abnormal_readings s).map keyOf).Perm (s.map keyOf) := by
    unfold detect_and_correct_abnormal_readings
    split
    · exact List.Perm.refl _
    · rw [foldl_correctAt_keyOf]
      exact (List.perm_insertionSort _ s).map keyOf
  refine ⟨hkey, ?_, ?_⟩
  · have := hkey.length_eq
    simpa using this
  · have : ∀ l : List NRow, l.map NRow.ts = (l.map keyOf).map Prod.fst := by
      intro l
      rw [List.map_map]
      rfl
    rw [this, this]
    exact hkey.map Prod.fst

/-- C7 (failing-input evidence): the corrector exposes no tolerance or
enable parameter — `main` reads `tolerance_percentage` and
`enable_correction` from the UI but never passes them into the pipeline —
so with any configuration (e.g. correction disabled), `[100, 200, 100]` is
still corrected to `[100, 100, 100]` using the hardcoded 1% tolerance. -/
theorem corrector_ignores_configuration :
    detect_and_correct_abnormal_readings
        [⟨0, "M", some 100⟩, ⟨15, "M", some 200⟩, ⟨30, "M", some 100⟩]
      = [⟨0, "M", some 100⟩, ⟨15, "M", some 100⟩, ⟨30, "M", some 100⟩] := by
  norm_num [detect_and_correct_abnormal_readings, sortSeries, correctAt,
    isMultipleAnomaly, anomalyRatioLt, List.insertionSort, List.orderedInsert,
    List.range, List.foldl]

/-! ## Consumption calculator -/

lemma diffWithAnchor_length (vals : List Rat) :
    (diffWithAnchor vals).length = vals.length := by
  cases vals with
  | nil => rfl
  | cons v rest =>
      simp only [diffWithAnchor, List.length_cons, List.length_zipWith]
      omega

lemma diffWithAnchor_getD (vals : List Rat) (k : Nat) (hk : k < vals.length) :
    (diffWithAnchor vals).getD k 0
      = if k = 0 then 0 else vals.getD k 0 - vals.getD (k-1) 0 := by
  cases vals with
  | nil => simp at hk
  | cons v rest =>
      cases k with
      | zero => simp [diffWithAnchor]
      | succ j =>
          simp only [diffWithAnchor, List.getD_cons_succ, Nat.succ_ne_zero, if_false,
            Nat.add_sub_cancel]
          simp only [List.length_cons] at hk
          have hj : j < rest.length := by omega
          have hz : j < (List.zipWith (fun a b => a - b) rest (v :: rest)).length := by
            simp only [List.length_zipWith, List.length_cons]
            omega
          rw [List.getD_eq_getElem _ _ hz, List.getElem_zipWith,
            List.getD_eq_getElem _ _ hj, List.getD_eq_getElem _ _ (by simp; omega)]

/-- C2: the consumption calculator restricts to rows with a numeric reading
(the valid readings, in series order), assigns consumption 0 to the first of
them and the difference of consecutive valid readings to every later one —
timestamps (hence time gaps) do not enter the computation, and absent
readings never enter the diff chain. -/
theorem consumption_diff_rule (s : List NRow) :
    (∀ t v, (t, v) ∈ validReadings s ↔ ∃ r, r ∈ s ∧ r.ts = t ∧ r.reading = some v) ∧
    (diffWithAnchor ((validReadings s).map Prod.snd)).length = (validReadings s).length ∧
    (∀ k, k < (validReadings s).length →
      (diffWithAnchor ((validReadings s).map Prod.snd)).getD k 0
        = if k = 0 then 0
          else ((validReadings s).map Prod.snd).getD k 0
            - ((validReadings s).map Prod.snd).getD (k-1) 0) := by
  refine ⟨?_, ?_, ?_⟩
  · intro t v
    simp only [validReadings, List.mem_filterMap, Option.map_eq_some']
    constructor
    · rintro ⟨r, hr, w, hw, heq⟩
      obtain ⟨h1, h2⟩ := Prod.mk.inj heq
      subst h2
      exact ⟨r, hr, h1, hw⟩
    · rintro ⟨r, hr, h1, h2⟩
      exact ⟨r, hr, v, h2, by rw [h1]⟩
  · rw [diffWithAnchor_length, List.length_map]
  · intro k hk
    rw [diffWithAnchor_getD _ k (by simpa using hk)]

/-- Witness for C2 on `[(0, 100), (15, absent), (30, 130)]`: the absent row
is skipped, the first valid reading anchors at 0, and slot 30 gets 130−100. -/
theorem consumption_diff_rule_witness :
    ((0, (100:Rat)) ∈ validReadings
        [⟨0, "M", some 100⟩, ⟨15, "M", none⟩, ⟨30, "M", some 130⟩]) ∧
    (diffWithAnchor ((validReadings
        [⟨0, "M", some 100⟩, ⟨15, "M", none⟩, ⟨30, "M", some 130⟩]).map Prod.snd)).getD 1 0
      = (if 1 = 0 then 0
          else ((validReadings
              [⟨0, "M", some 100⟩, ⟨15, "M", none⟩, ⟨30, "M", some 130⟩]).map Prod.snd).getD 1 0
            - ((validReadings
              [⟨0, "M", some 100⟩, ⟨15, "M", none⟩, ⟨30, "M", some 130⟩]).map Prod.snd).getD 0 0) := by
  constructor
  · exact ((consumption_diff_rule _).1 0 100).mpr ⟨⟨0, "M", some 100⟩, by simp, rfl, rfl⟩
  · exact (consumption_diff_rule _).2.2 1 (by norm_num [validReadings, List.filterMap])

lemma clampNeg_nonneg (v : Rat) : 0 ≤ clampNeg v := by
  unfold clampNeg
  split
  · exact le_refl 0
  · rename_i h
    exact le_of_not_lt h

lemma lookupTs_mem : ∀ (ps : List (Nat × Rat)) (t : Nat) (v : Rat),
    lookupTs t ps = some v → (t, v) ∈ ps := by
  intro ps
  induction ps with
  | nil => intro t v h; exact Option.noConfusion h
  | cons p rest ih =>
      intro t v h
      obtain ⟨k, w⟩ := p
      rw [lookupTs] at h
      by_cases hk : t = k
      · rw [if_pos hk] at h
        obtain rfl := Option.some.inj h
        subst hk
        exact List.mem_cons_self _ _
      · rw [if_neg hk] at h
        exact List.mem_cons_of_mem _ (ih t v h)

lemma consumptionPairs_nonneg (md : List NRow) (t : Nat) (v : Rat)
    (hp : (t, v) ∈ consumptionPairs md) : 0 ≤ v := by
  unfold consumptionPairs at hp
  have hv := (List.of_mem_zip hp).2
  simp only [List.mem_map] at hv
  obtain ⟨x, _, hx⟩ := hv
  rw [← hx]
  exact clampNeg_nonneg x

/-- C3: every Volume Consumption value the calculator emits is ≥ 0 — a
negative diff (counter reset) is clamped to 0 and timeline-filled slots are
0 — and the clamp has no upper bound: it is the identity on every
non-negative value. -/
theorem consumption_nonneg :
    (∀ (s : List RawRow) (master : List Nat) (r : OutRec),
        r ∈ calculate_meter_consumption s master → 0 ≤ r.vol) ∧
    (∀ v : Rat, 0 ≤ v → clampNeg v = v) := by
  constructor
  · intro s master r hr
    unfold calculate_meter_consumption at hr
    cases s with
    | nil =>
        simp only [List.mem_map] at hr
        obtain ⟨t, _, rfl⟩ := hr
        exact le_refl 0
    | cons a s' =>
        cases hvs : validReadings (pipelineCorrected (a :: s')) with
        | nil =>
            rw [hvs] at hr
            simp only [List.mem_map] at hr
            obtain ⟨t, _, rfl⟩ := hr
            exact le_refl 0
        | cons p ps =>
            rw [hvs] at hr
            simp only [List.mem_map] at hr
            obtain ⟨t, _, rfl⟩ := hr
            cases hl : lookupTs t (consumptionPairs (pipelineCorrected (a :: s'))) with
            | none => simp [hl]
            | some w =>
                have hw := consumptionPairs_nonneg _ t w (lookupTs_mem _ t w hl)
                simpa [hl] using hw
  · intro v hv
    unfold clampNeg
    rw [if_neg (not_lt.mpr hv)]

/-- Witness for C3: the counter-reset series 500 then 10 yields consumption
0 at the second slot (clamped, not −490), and the clamp passes 7 through. -/
theorem consumption_nonneg_witness :
    (OutRec.mk (OutTS.fmt 15) "M7" 0
        ∈ calculate_meter_consumption
            [⟨some 0, "M7", some 500⟩, ⟨some 15, "M7", some 10⟩] [0, 15]) ∧
    (0 : Rat) ≤ (OutRec.mk (OutTS.fmt 15) "M7" 0).vol ∧
    clampNeg 7 = 7 := by
  have hmem : OutRec.mk (OutTS.fmt 15) "M7" 0
      ∈ calculate_meter_consumption
          [⟨some 0, "M7", some 500⟩, ⟨some 15, "M7", some 10⟩] [0, 15] := by
    norm_num [calculate_meter_consumption, pipelineCorrected, normalizeRows, sortSeries,
      dedupFirst, detect_and_correct_abnormal_readings, validReadings, consumptionPairs,
      diffWithAnchor, clampNeg, meterNameOf, lookupTs, List.insertionSort,
      List.orderedInsert, List.filterMap, List.zip, List.zipWith]
  exact ⟨hmem, consumption_nonneg.1 _ _ _ hmem, consumption_nonneg.2 7 (by norm_num)⟩

/-- Default record used with `List.getD` when indexing output series. -/
def dOut : OutRec := ⟨OutTS.raw 0, "", 0⟩

/-- C4: for every input (0, 1 or N rows, even all-invalid) the output series
is total over the canonical timeline: it has exactly `master.length` records;
slot `i` carries the consumption looked up by exact timestamp equality among
the valid readings' computed consumption pairs (0 when no pair matches); and
a series with no valid reading yields an all-zero output rather than an
error. -/
theorem output_alignment (s : List RawRow) (master : List Nat) :
    (calculate_meter_consumption s master).length = master.length ∧
    (∀ i, i < master.length →
      ((calculate_meter_consumption s master).getD i dOut).vol
        = (lookupTs (master.getD i 0) (consumptionPairs (pipelineCorrected s))).getD 0) ∧
    (validReadings (pipelineCorrected s) = [] →
      ∀ r ∈ calculate_meter_consumption s master, r.vol = 0) := by
  refine ⟨?_, ?_, ?_⟩
  · unfold calculate_meter_consumption
    cases s with
    | nil => simp
    | cons a s' =>
        cases hvs : validReadings (pipelineCorrected (a :: s')) with
        | nil => simp
        | cons p ps => simp
  · intro i hi
    unfold calculate_meter_consumption
    cases s with
    | nil =>
        have hb : i < (master.map (fun t => OutRec.mk (OutTS.raw t) "Unknown" 0)).length := by
          simpa using hi
        rw [List.getD_eq_getElem _ _ hb, List.getElem_map]
        rw [show consumptionPairs (pipelineCorrected []) = [] from rfl]
        rfl
    | cons a s' =>
        cases hvs : validReadings (pipelineCorrected (a :: s')) with
        | nil =>
            have hpairs : consumptionPairs (pipelineCorrected (a :: s')) = [] := by
              unfold consumptionPairs
              rw [hvs]
              rfl
            dsimp only
            have hb : i < (master.map (fun t =>
                OutRec.mk (OutTS.fmt t) (meterNameOf (pipelineCorrected (a :: s'))) 0)).length := by
              simpa using hi
            rw [List.getD_eq_getElem _ _ hb, List.getElem_map, hpairs]
            rfl
        | cons p ps =>
            dsimp only
            have hb : i < (master.map (fun t =>
                OutRec.mk (OutTS.fmt t) (meterNameOf (pipelineCorrected (a :: s')))
                  ((lookupTs t (consumptionPairs (pipelineCorrected (a :: s')))).getD 0))).length := by
              simpa using hi
            rw [List.getD_eq_getElem _ _ hb, List.getElem_map,
              List.getD_eq_getElem master _ (by simpa using hi)]
  · intro hvs r hr
    unfold calculate_meter_consumption at hr
    cases s with
    | nil =>
        simp only [List.mem_map] at hr
        obtain ⟨t, _, rfl⟩ := hr
        rfl
    | cons a s' =>
        rw [hvs] at hr
        simp only [List.mem_map] at hr
        obtain ⟨t, _, rfl⟩ := hr
        rfl

/-- Witness for C4 on the empty series with a two-slot timeline. -/
theorem output_alignment_witness :
    (calculate_meter_consumption [] [5, 20]).length = 2 ∧
    ((calculate_meter_consumption [] [5, 20]).getD 0 dOut).vol
      = (lookupTs 5 (consumptionPairs (pipelineCorrected []))).getD 0 ∧
    (OutRec.mk (OutTS.raw 5) "Unknown" 0).vol = 0 := by
  refine ⟨(output_alignment [] [5, 20]).1, ?_, ?_⟩
  · exact (output_alignment [] [5, 20]).2.1 0 (by norm_num)
  · exact (output_alignment [] [5, 20]).2.2 rfl _ (by norm_num [calculate_meter_consumption])

/-- C10: a meter whose normalized series is empty is reported under the
literal meter name `Unknown` instead of its own identifier — in the zero-row
branch with raw (unformatted) timeline timestamps, and in the
all-timestamps-failed branch with formatted timestamps. -/
theorem unknown_meter_on_empty_series (master : List Nat) (s : List RawRow) :
    calculate_meter_consumption [] master
      = master.map (fun t => OutRec.mk (OutTS.raw t) "Unknown" 0) ∧
    (s ≠ [] → (∀ r ∈ s, r.ts = none) →
      calculate_meter_consumption s master
        = master.map (fun t => OutRec.mk (OutTS.fmt t) "Unknown" 0)) := by
  constructor
  · rfl
  · intro hne hall
    cases s with
    | nil => exact absurd rfl hne
    | cons a s' =>
        have hnorm : normalizeRows (a :: s') = [] := by
          unfold normalizeRows
          rw [List.filterMap_eq_nil_iff]
          intro r hr
          rw [hall r hr]
          rfl
        have hpipe : pipelineCorrected (a :: s') = [] := by
          unfold pipelineCorrected
          rw [hnorm]
          rfl
        unfold calculate_meter_consumption
        rw [hpipe]
        rfl

/-- Witness for C10: a meter `M7` whose single row has an unparsable
timestamp is emitted as `Unknown`; the zero-row case uses raw timestamps. -/
theorem unknown_meter_on_empty_series_witness :
    calculate_meter_consumption [] [7]
      = [OutRec.mk (OutTS.raw 7) "Unknown" 0] ∧
    calculate_meter_consumption [RawRow.mk none "M7" (some 5)] [0, 15]
      = [OutRec.mk (OutTS.fmt 0) "Unknown" 0, OutRec.mk (OutTS.fmt 15) "Unknown" 0] := by
  constructor
  · simpa using (unknown_meter_on_empty_series [7] []).1
  · have h := (unknown_meter_on_empty_series [0, 15] [RawRow.mk none "M7" (some 5)]).2
      (by simp) (by intro r hr; simp only [List.mem_singleton] at hr; subst hr; rfl)
    simpa using h
